import Mathlib

/-!
Shallow embedding of `frac.py` (an interactive fraction-arithmetic drill).

The embedding follows the source closely:
  * `Fraction` models the subclass `Fraction(fractions.Fraction)`: an integer
    numerator and a denominator kept positive after construction, reduced to
    lowest terms by `Fraction.make` (the constructor's normalisation step).
  * `Fraction.str` models the subclass `__str__` (mixed-number rendering);
    `Fraction.strPlain` models the base-class `fractions.Fraction.__str__`.
    The whole part is computed by Python as `int(numerator / denominator)`:
    a binary64 true division followed by truncation, modelled exactly by
    `pyIntDiv` for quotients below the binary64 overflow threshold.
  * `matchWholeFormat` models `_WHOLE_FORMAT.match` (the mixed-number regex,
    anchored at the start only), and `pyFracOfString` models the CPython 3.11
    `fractions._RATIONAL_FORMAT` string constructor.  `parse` is the answer
    parsing done in `main`: the regex path first, the string constructor
    otherwise; `ZeroDivisionError` (zero denominator) is `divByZero`,
    `ValueError` (malformed text) is `parseError`.
  * `Guess`, `Session`, `step` and `runList` model `Guess` and the `while`
    loop of `main`; the random draws consumed when a fresh problem is
    generated are passed in explicitly as an `Oracle`.
-/

/-- Whitespace for Python `str.strip()` and the regex class `\s`
(the ASCII part: TAB..CR, FS..US, SPACE). -/
def isPySpace (c : Char) : Bool :=
  (9 ≤ c.toNat && c.toNat ≤ 13) || (28 ≤ c.toNat && c.toNat ≤ 31) || c.toNat == 32

/-- Python `str.strip()` on a line of input. -/
def pyStrip (s : String) : String :=
  ⟨((s.toList.dropWhile isPySpace).reverse.dropWhile isPySpace).reverse⟩

/-- Numeric value of a digit character. -/
def digitVal (c : Char) : ℕ := c.toNat - 48

/-- Value of a run of decimal digit characters, as `int()` computes it. -/
def digitsToNat (ds : List Char) : ℕ := ds.foldl (fun a c => 10 * a + digitVal c) 0

/-- Worker for `udigits`; the fuel (initially the length of the list) only
bounds the recursion, each step consumes at least one character. -/
def udigitsAux : ℕ → List Char → List Char × List Char
  | 0, cs => ([], cs)
  | _ + 1, [] => ([], [])
  | fuel + 1, c :: t =>
    if c.isDigit then
      let p := udigitsAux fuel t
      (c :: p.1, p.2)
    else if c = ('_') then
      match t with
      | d :: t2 =>
        if d.isDigit then
          let p := udigitsAux fuel t2
          (d :: p.1, p.2)
        else ([], c :: t)
      | [] => ([], c :: t)
    else ([], c :: t)

/-- Longest prefix matching the regex `\d+(_\d+)*` (digits with single
underscores between digit groups), returned with the underscores removed
(as `int()` accepts them), together with the unconsumed rest.  An input not
starting with a digit yields an empty match. -/
def udigits (cs : List Char) : List Char × List Char :=
  match cs with
  | c :: _ => if c.isDigit then udigitsAux cs.length cs else ([], cs)
  | [] => ([], cs)

/-- A rational as stored by `fractions.Fraction`: integer numerator carrying
the sign, positive denominator (after construction through `Fraction.make`). -/
structure Fraction where
  numerator : ℤ
  denominator : ℕ
  deriving DecidableEq

/-- `Fraction(numerator, denominator)` normalisation: divide both by the gcd,
with the gcd's sign flipped when the denominator is negative, so the reduced
denominator is positive.  Python raises `ZeroDivisionError` when the
denominator is 0; every caller branches on that case first (`mkParsed`), so
the value returned here at `d = 0` is never used. -/
def Fraction.make (n d : ℤ) : Fraction :=
  if d = 0 then ⟨0, 0⟩
  else
    let g : ℤ := if d < 0 then -(Int.gcd n d : ℤ) else (Int.gcd n d : ℤ)
    ⟨n / g, (d / g).toNat⟩

/-- `fractions.Fraction.__neg__` (the private constructor keeps the stored
numerator/denominator, already in lowest terms). -/
def Fraction.neg (f : Fraction) : Fraction := ⟨-f.numerator, f.denominator⟩

/-- `fractions.Fraction.__add__`: the reduced form of the exact sum. -/
def Fraction.add (a b : Fraction) : Fraction :=
  Fraction.make (a.numerator * (b.denominator : ℤ) + b.numerator * (a.denominator : ℤ))
    ((a.denominator : ℤ) * (b.denominator : ℤ))

/-- `fractions.Fraction.__sub__`: the reduced form of the exact difference. -/
def Fraction.sub (a b : Fraction) : Fraction :=
  Fraction.make (a.numerator * (b.denominator : ℤ) - b.numerator * (a.denominator : ℤ))
    ((a.denominator : ℤ) * (b.denominator : ℤ))

/-- Round `num / den` to the nearest integer, ties to even: the final
rounding step of a correctly rounded binary64 division. -/
def rnd2even (num den : ℕ) : ℕ :=
  let q := num / den
  let r := num % den
  if 2 * r < den then q
  else if den < 2 * r then q + 1
  else if q % 2 = 0 then q else q + 1

/-- Worker for `natLog2`, structurally recursive on the fuel. -/
def natLog2Aux : ℕ → ℕ → ℕ
  | 0, _ => 0
  | fuel + 1, n => if n < 2 then 0 else natLog2Aux fuel (n / 2) + 1

/-- Base-2 logarithm (floor) of a positive natural number. -/
def natLog2 (n : ℕ) : ℕ := natLog2Aux n n

/-- Python `int(a / b)` for naturals: `a / b` is true division producing the
binary64 value nearest to the exact quotient (ties to even over the 53-bit
mantissa), and `int` truncates it.  Modelled exactly for `b ≤ a` with the
quotient below the binary64 overflow threshold (far beyond every value this
program can print).  The `a < b` and `b = 0` cases are never reached from
`Fraction.str`, the only caller. -/
def pyIntDiv (a b : ℕ) : ℕ :=
  if a < b ∨ b = 0 then a / b
  else
    let e := natLog2 (a / b)
    if e ≤ 52 then rnd2even (a * 2 ^ (52 - e)) b / 2 ^ (52 - e)
    else rnd2even a (b * 2 ^ (e - 52)) * 2 ^ (e - 52)

/-- Base-class `fractions.Fraction.__str__`: `"num"` when the denominator is
1, otherwise `"num/den"`. -/
def Fraction.strPlain (f : Fraction) : String :=
  if f.denominator = 1 then toString f.numerator
  else toString f.numerator ++ ("/") ++ toString f.denominator

/-- The subclass `Fraction.__str__` of `frac.py`: for `numerator ≥
denominator`, `whole = int(numerator / denominator)` (binary64 division,
truncated — `pyIntDiv`), and remainder `numerator % denominator` (exact);
a zero remainder renders as the bare whole, otherwise
`"{whole}-{Fraction(remainder, denominator)}"`.  The inner
`Fraction(remainder, denominator)` always lands in the base-class branch
(its reduced numerator is below its denominator), so its rendering is
`(Fraction.make …).strPlain`. -/
def Fraction.str (f : Fraction) : String :=
  if (f.denominator : ℤ) ≤ f.numerator then
    let whole := pyIntDiv f.numerator.toNat f.denominator
    let r := f.numerator.toNat % f.denominator
    if r = 0 then toString whole
    else toString whole ++ ("-") ++ (Fraction.make (r : ℤ) (f.denominator : ℤ)).strPlain
  else f.strPlain

/-- Outcome of evaluating one line of answer text, as `main` sees it. -/
inductive ParseResult
  | ok (f : Fraction)
  | parseError
  | divByZero
  deriving DecidableEq

/-- `Fraction(n, d)` at a parse site: `ZeroDivisionError` when `d = 0`,
otherwise the reduced fraction. -/
def mkParsed (n : ℤ) (d : ℕ) : ParseResult :=
  if d = 0 then ParseResult.divByZero else ParseResult.ok (Fraction.make n (d : ℤ))

/-- `_WHOLE_FORMAT.match(raw)`: the regex `(?P<whole>\d+)-(?P<num>\d+)/(?P<denom>\d+)`
matched at the start of the text (trailing characters are not anchored away).
Returns the three digit-group values. -/
def matchWholeFormat (cs : List Char) : Option (ℕ × ℕ × ℕ) :=
  let p1 := cs.span Char.isDigit
  if p1.1 = [] then none
  else
    match p1.2 with
    | c :: r1 =>
      if c = ('-') then
        let p2 := r1.span Char.isDigit
        if p2.1 = [] then none
        else
          match p2.2 with
          | c2 :: r2 =>
            if c2 = ('/') then
              let p3 := r2.span Char.isDigit
              if p3.1 = [] then none
              else some (digitsToNat p1.1, digitsToNat p2.1, digitsToNat p3.1)
            else none
          | [] => none
      else none
    | [] => none

/-- Apply the optional leading sign captured by the string regex. -/
def applySign (neg : Bool) (n : ℕ) : ℤ := if neg then -(n : ℤ) else (n : ℤ)

/-- The decimal-point and exponent tail of `_RATIONAL_FORMAT` (the second
alternative after the numerator): an optional `.decimal` part (digits may be
empty), an optional `E[-+]?digits` exponent, then only whitespace may remain.
Mirrors the CPython value computation: `numerator * 10^len(decimal) + decimal`
over `10^len(decimal)`, scaled by `10^exp` on the matching side.  (CPython
3.11's decimal group reads `d*|\d+(_\d+)*` — a verbose-mode typo for `\d*`;
a nonempty run of literal `d`s would match but then fail inside `int()` with
the same `ValueError`, so the observable behaviour modelled here is
identical.) -/
def fracTail (neg : Bool) (numDs : List Char) (cs3 : List Char) : ParseResult :=
  let pDec : List Char × List Char :=
    match cs3 with
    | c :: t => if c = ('.') then udigits t else ([], cs3)
    | [] => ([], cs3)
  let pExp : Option (Bool × ℕ) × List Char :=
    match pDec.2 with
    | c :: t =>
      if c = ('e') || c = ('E') then
        let sgn : Bool × List Char :=
          match t with
          | d :: t2 =>
            if d = ('-') then (true, t2)
            else if d = ('+') then (false, t2)
            else (false, t)
          | [] => (false, t)
        let pE := udigits sgn.2
        if pE.1 = [] then (none, pDec.2)
        else (some (sgn.1, digitsToNat pE.1), pE.2)
      else (none, pDec.2)
    | [] => (none, pDec.2)
  if pExp.2.dropWhile isPySpace ≠ [] then ParseResult.parseError
  else
    let scale : ℕ := 10 ^ pDec.1.length
    let n0 : ℕ := digitsToNat numDs * scale + digitsToNat pDec.1
    match pExp.1 with
    | none => mkParsed (applySign neg n0) scale
    | some (es, ev) =>
      if es then mkParsed (applySign neg n0) (scale * 10 ^ ev)
      else mkParsed (applySign neg (n0 * 10 ^ ev)) scale

/-- The `fractions.Fraction(string)` constructor (CPython 3.11
`_RATIONAL_FORMAT`): optional whitespace, optional sign, a lookahead
requiring a digit or `.digit`, a possibly empty numerator digit run, then
either `/digits` or a decimal/exponent tail, then optional whitespace.
`ValueError` on no match; `ZeroDivisionError` on a zero denominator. -/
def pyFracOfString (cs0 : List Char) : ParseResult :=
  let cs1 := cs0.dropWhile isPySpace
  let sgn : Bool × List Char :=
    match cs1 with
    | c :: t =>
      if c = ('-') then (true, t)
      else if c = ('+') then (false, t)
      else (false, cs1)
    | [] => (false, cs1)
  let look : Bool :=
    match sgn.2 with
    | c :: t =>
      c.isDigit ||
        (c = ('.') && (match t with | d :: _ => d.isDigit | [] => false))
    | [] => false
  if !look then ParseResult.parseError
  else
    let pNum := udigits sgn.2
    match pNum.2 with
    | c :: t =>
      if c = ('/') then
        let pDen := udigits t
        if pDen.1 = [] then ParseResult.parseError
        else if pDen.2.dropWhile isPySpace ≠ [] then ParseResult.parseError
        else mkParsed (applySign sgn.1 (digitsToNat pNum.1)) (digitsToNat pDen.1)
      else fracTail sgn.1 pNum.1 pNum.2
    | [] => fracTail sgn.1 pNum.1 pNum.2

/-- Answer parsing as `main` performs it on the stripped input text: the
mixed-number regex first (value `(whole*denom + num) / denom`), the
`Fraction(string)` constructor otherwise. -/
def parse (s : String) : ParseResult :=
  match matchWholeFormat s.toList with
  | some (w, n, d) => mkParsed (((w * d + n : ℕ) : ℤ)) d
  | none => pyFracOfString s.toList

/-- The `Operator` enum: ADD and SUB, each carrying a binary function over
fractions (`operator.add` / `operator.sub`). -/
inductive Operator
  | ADD
  | SUB
  deriving DecidableEq

/-- `Operator.op`: the binary function carried by the enum member. -/
def Operator.op : Operator → Fraction → Fraction → Fraction
  | Operator.ADD, a, b => Fraction.add a b
  | Operator.SUB, a, b => Fraction.sub a b

/-- `get_random_fraction(denominator)`: `Fraction(randint(1, denominator-1),
denominator)`; the drawn numerator is passed in explicitly. -/
def get_random_fraction (draw denominator : ℕ) : Fraction :=
  Fraction.make (draw : ℤ) (denominator : ℤ)

/-- The mutable `Guess` object.  `wantIsBase` records a Python subtlety: in
the swapped branch of `reset`, `self.want = -want` calls the base class
`__neg__`, which rebuilds a *base* `fractions.Fraction`, so that `want`
renders through the base `__str__` (`strPlain`), not the subclass mixed
rendering. -/
structure Guess where
  left : Fraction
  right : Fraction
  want : Fraction
  wantIsBase : Bool
  op : Operator
  n : ℕ
  deriving DecidableEq

/-- `Guess.reset(left, right, op)`: compute `want = op(left, right)`; if it
is negative, swap the displayed operands and store `-want`. -/
def Guess.reset (left right : Fraction) (op : Operator) : Guess :=
  let want := op.op left right
  if 0 ≤ want.numerator then ⟨left, right, want, false, op, 0⟩
  else ⟨right, left, Fraction.neg want, true, op, 0⟩

/-- The string `f'{guess.want}'` used in the prompt feedback and the
canonical-mode comparison, honouring the class of the stored `want`. -/
def Guess.wantStr (g : Guess) : String :=
  if g.wantIsBase then g.want.strPlain else g.want.str

/-- `Guess.__init__`: the placeholder problem `0 + 0`. -/
def Guess.init : Guess := Guess.reset (Fraction.make 0 1) (Fraction.make 0 1) Operator.ADD

/-- The configuration bits of `args` that the loop's logic reads (`-x`): the
other flags feed only the random generation (the oracle) and the printed
feedback. -/
structure Config where
  canonical : Bool
  deriving DecidableEq

/-- The random draws consumed when a fresh problem is generated: the two
`get_random_fraction` results and the `random.choice` of operator. -/
structure Oracle where
  left : Fraction
  right : Fraction
  op : Operator
  deriving DecidableEq

/-- What the blocking `input()` call produces for one iteration: a line of
text, a `KeyboardInterrupt`, or an `EOFError`. -/
inductive Event
  | line (s : String)
  | interrupt
  | eof
  deriving DecidableEq

/-- The mutable state of `main`'s loop. -/
structure Session where
  rpt : Bool
  guess : Guess
  interrupts : ℕ
  correct : ℕ
  incorrect : ℕ
  skipped : ℕ
  first : Bool
  deriving DecidableEq

/-- The state of `main` just before the loop: `repeat = False`, the
placeholder `Guess()`, zeroed counters, `first = True`. -/
def Session.init : Session := ⟨false, Guess.init, 0, 0, 0, 0, true⟩

/-- The guess that this iteration prompts: freshly generated from the random
draws when `not repeat or first`, the preserved one otherwise. -/
def promptedGuess (s : Session) (o : Oracle) : Guess :=
  if !s.rpt || s.first then Guess.reset o.left o.right o.op else s.guess

/-- How one loop iteration ends: continue looping, `break` out (3rd
consecutive interrupt, or EOF), or an exception escaping the loop
(`ZeroDivisionError` from a zero-denominator answer, caught nowhere). -/
inductive StepResult
  | next (s : Session)
  | quitInterrupts (s : Session)
  | quitEof (s : Session)
  | crash (s : Session)
  deriving DecidableEq

/-- One iteration of `main`'s `while True` loop: regenerate the problem if
needed, set `first = False`, prompt (`n += 1`), then dispatch on what
`input()` produced.  A read line is stripped, the consecutive-interrupt
counter is reset *before* parsing, and parsing dispatches as in `parse`;
`ValueError` sets `repeat = True` and re-loops, `ZeroDivisionError` escapes.
On an interrupt the counters are bumped and the loop breaks once
`interrupts > 2`. -/
def step (cfg : Config) (s : Session) (o : Oracle) (ev : Event) : StepResult :=
  let g0 := promptedGuess s o
  let g : Guess := ⟨g0.left, g0.right, g0.want, g0.wantIsBase, g0.op, g0.n + 1⟩
  let s1 : Session := { s with guess := g, first := false }
  match ev with
  | Event.eof => StepResult.quitEof s1
  | Event.interrupt =>
    let s2 : Session :=
      { s1 with
        interrupts := s1.interrupts + 1
        skipped := s1.skipped + 1
        rpt := false }
    if 2 < s2.interrupts then StepResult.quitInterrupts s2 else StepResult.next s2
  | Event.line input =>
    let raw := pyStrip input
    let s2 : Session := { s1 with interrupts := 0 }
    match parse raw with
    | ParseResult.parseError => StepResult.next { s2 with rpt := true }
    | ParseResult.divByZero => StepResult.crash s2
    | ParseResult.ok got =>
      if (cfg.canonical && raw == g.wantStr) || (!cfg.canonical && got == g.want) then
        StepResult.next { s2 with correct := s2.correct + 1, rpt := false }
      else
        StepResult.next { s2 with incorrect := s2.incorrect + 1, rpt := true }

/-- The session carried by a `StepResult`. -/
def StepResult.sess : StepResult → Session
  | StepResult.next s => s
  | StepResult.quitInterrupts s => s
  | StepResult.quitEof s => s
  | StepResult.crash s => s

/-- Whether the iteration ended with the unhandled `ZeroDivisionError`. -/
def StepResult.isCrash : StepResult → Bool
  | StepResult.crash _ => true
  | _ => false

/-- How a whole run of the loop ends (or that the trace was exhausted with
the loop still live). -/
inductive Outcome
  | running (s : Session)
  | stoppedInterrupts (s : Session)
  | stoppedEof (s : Session)
  | crashed (s : Session)
  deriving DecidableEq

/-- Whether the run ended by the repeated-interrupts `break`. -/
def Outcome.isStoppedInterrupts : Outcome → Bool
  | Outcome.stoppedInterrupts _ => true
  | _ => false

/-- Run the loop over a finite trace of iterations, each supplying the
random draws (used only if a fresh problem is generated) and the `input()`
event. -/
def runList (cfg : Config) : Session → List (Oracle × Event) → Outcome
  | s, [] => Outcome.running s
  | s, (o, ev) :: rest =>
    match step cfg s o ev with
    | StepResult.next s2 => runList cfg s2 rest
    | StepResult.quitInterrupts s2 => Outcome.stoppedInterrupts s2
    | StepResult.quitEof s2 => Outcome.stoppedEof s2
    | StepResult.crash s2 => Outcome.crashed s2

/-- The reduction invariant the spec states for every constructed rational:
positive denominator, numerator and denominator coprime. -/
def Reduced (f : Fraction) : Prop :=
  0 < f.denominator ∧ Nat.gcd f.numerator.natAbs f.denominator = 1

instance (f : Fraction) : Decidable (Reduced f) := by
  unfold Reduced; infer_instance

/-- The rendering the spec describes, as amended: for values ≥ 1 the whole
part is the exact floor (the code's `int(numerator / denominator)` agrees
with it only below `2^53`) and the remainder — already in lowest terms for a
reduced fraction — follows after a hyphen; whole numbers drop the `-0/d`
tail; values below 1 with denominator 1 (zero and the negative integers)
render as the bare integer, all other values below 1 as `num/den`. -/
def specStr (f : Fraction) : String :=
  if (f.denominator : ℤ) ≤ f.numerator then
    let whole := f.numerator.toNat / f.denominator
    let r := f.numerator.toNat % f.denominator
    if r = 0 then toString whole
    else toString whole ++ ("-") ++ toString r ++ ("/") ++ toString f.denominator
  else if f.denominator = 1 then toString f.numerator
  else toString f.numerator ++ ("/") ++ toString f.denominator

/-- The trace contains three contiguous interrupt events. -/
def HasTriple (tr : List (Oracle × Event)) : Prop :=
  ∃ l o1 o2 o3 r,
    tr = l ++ (o1, Event.interrupt) :: (o2, Event.interrupt) :: (o3, Event.interrupt) :: r

/-- Number of leading interrupt events of a trace. -/
def leadInts : List (Oracle × Event) → ℕ
  | [] => 0
  | p :: t => if p.2 = Event.interrupt then leadInts t + 1 else 0

/-- A nonempty run of decimal digits (`\d+`). -/
def DigitRun (l : List Char) : Prop := l ≠ [] ∧ ∀ c ∈ l, c.isDigit = true

instance (l : List Char) : Decidable (DigitRun l) := by
  unfold DigitRun; infer_instance

/-- The shape the amended mixed-number claim describes: the text is three
nonempty digit runs joined by `-` and `/`, followed by any rest that does
not begin with a digit (the regex is anchored at the start only, so such a
rest is ignored); `w`, `n`, `d` are the three digit-group values. -/
def IsMixedNumeral (cs : List Char) (w n d : ℕ) : Prop :=
  ∃ ws ns ds rest,
    DigitRun ws ∧ DigitRun ns ∧ DigitRun ds ∧
    cs = ws ++ ('-') :: (ns ++ ('/') :: (ds ++ rest)) ∧
    (∀ c t, rest = c :: t → c.isDigit = false) ∧
    w = digitsToNat ws ∧ n = digitsToNat ns ∧ d = digitsToNat ds

/-- A fixed triple of random draws, for concrete runs. -/
def oracleA : Oracle := ⟨Fraction.make 1 2, Fraction.make 1 4, Operator.ADD⟩

/-- Value-equality checking mode (no `-x`). -/
def cfgValue : Config := ⟨false⟩

/-- Canonical string checking mode (`-x`). -/
def cfgCanon : Config := ⟨true⟩

/-- A mid-session state re-asking a problem whose answer is `1/2`. -/
def sessionHalf : Session :=
  ⟨true, ⟨Fraction.make 1 4, Fraction.make 1 4, Fraction.make 1 2, false, Operator.ADD, 1⟩,
    0, 0, 0, 0, false⟩

/-- A mid-session state with the repeat flag clear. -/
def sessionFresh : Session := ⟨false, Guess.init, 0, 0, 0, 0, false⟩

/-- Claim C1 counterexample: the input line `5/0` — a normal input naming a
zero denominator — raises `ZeroDivisionError` inside the loop body, which no
`except` clause catches, so the error escapes the session loop. -/
theorem c1_counterexample :
    (step cfgValue Session.init oracleA (Event.line ("5/0"))).isCrash = true := by
  decide

/-- Claim C2 counterexample: in canonical mode, with `want = 1/2`, the input
line `" 1/2"` differs from the canonical string `"1/2"` only by extra
whitespace, yet it is judged correct (the correct counter is bumped),
because `Guess.prompt` strips the line before the comparison. -/
theorem c2_counterexample :
    (step cfgCanon sessionHalf oracleA (Event.line (" 1/2"))).sess.correct =
      sessionHalf.correct + 1 := by
  decide

/-- Claim C3 counterexample: `1-3/8x` has trailing characters beyond the
mixed-number pattern, yet it parses to `11/8` rather than failing, because
`_WHOLE_FORMAT.match` is not anchored at the end. -/
theorem c3_counterexample : parse ("1-3/8x") = ParseResult.ok ⟨11, 8⟩ := by
  decide

/-- Claim C4 counterexample: three cancellation signals with only a
malformed (never parsed) line between them do not terminate the session —
the code resets the consecutive-interrupt counter on any read line, parsed
or not. -/
theorem c4_counterexample :
    (runList cfgValue Session.init
        [(oracleA, Event.interrupt), (oracleA, Event.interrupt),
          (oracleA, Event.line ("abc")), (oracleA, Event.interrupt)]).isStoppedInterrupts
        = false ∧
      parse (pyStrip ("abc")) = ParseResult.parseError := by
  constructor
  · decide
  · decide

/-- Claim C5 counterexample: on the malformed input `abc` the repeat flag
does not stay at its prior value `false`: the handler sets it to `true`. -/
theorem c5_counterexample :
    sessionFresh.rpt = false ∧
      (step cfgValue sessionFresh oracleA (Event.line ("abc"))).sess.rpt = true := by
  constructor
  · decide
  · decide

/-- Claim C6 counterexample: `-2/1` is a value below 1 yet renders as the
bare integer `-2`, not `"-2/1"`; and at numerator `2^53 + 1` the whole part
`int(numerator / denominator)` is computed through a binary64 division, so
`(2^53+1)/1` renders as `9007199254740992`, not the floor-based
`9007199254740993`. -/
theorem c6_counterexample :
    Fraction.str (Fraction.make (-2) 1) = ("-2") ∧
      Fraction.str (Fraction.make 9007199254740993 1) = ("9007199254740992") := by
  constructor
  · decide
  · decide

/-- Claim C7: evaluating the code at the failing input: the reduced value
`9007199254740993/1` formats through the float-truncated whole part as
`"9007199254740992"`, which parses back to a different rational, so the
round-trip fails there. -/
theorem c7_theorem :
    parse (Fraction.str (Fraction.make 9007199254740993 1)) =
        ParseResult.ok (Fraction.make 9007199254740992 1) ∧
      Fraction.make 9007199254740992 1 ≠ Fraction.make 9007199254740993 1 := by
  constructor
  · decide
  · decide

/-- Claim C8 counterexample: `Guess.reset(-1/2, -1/2, ADD)` stores
`want = 1`, but the operator applied to the displayed operands (in display
order) gives `-1`, not `want`: swapping the operands of an addition does not
negate the sum. -/
theorem c8_counterexample :
    (Guess.reset (Fraction.make (-1) 2) (Fraction.make (-1) 2) Operator.ADD).want =
        Fraction.make 1 1 ∧
      Operator.op Operator.ADD
          (Guess.reset (Fraction.make (-1) 2) (Fraction.make (-1) 2) Operator.ADD).left
          (Guess.reset (Fraction.make (-1) 2) (Fraction.make (-1) 2) Operator.ADD).right =
        Fraction.make (-1) 1 ∧
      Fraction.make (-1) 1 ≠ Fraction.make 1 1 := by
  constructor
  · decide
  · constructor
    · decide
    · decide

/-- Claim C10: the placeholder problem installed by `Guess.__init__` is
never prompted: whatever the repeat flag holds, the first loop iteration
(`first = True`) regenerates the guess from fresh random draws before any
prompt. -/
theorem c10_theorem :
    (∀ (b : Bool) (o : Oracle),
        promptedGuess { Session.init with rpt := b } o = Guess.reset o.left o.right o.op) ∧
      ∀ (s : Session) (o : Oracle), s.first = true →
        promptedGuess s o = Guess.reset o.left o.right o.op := by
  constructor
  · intro b o
    simp [promptedGuess, Session.init]
  · intro s o h
    simp [promptedGuess, h]

/-- Claim C10 witness: the first iteration of a session whose repeat flag is
set still prompts the freshly generated problem. -/
theorem c10_witness :
    promptedGuess { Session.init with rpt := true } oracleA =
      Guess.reset oracleA.left oracleA.right oracleA.op :=
  c10_theorem.2 { Session.init with rpt := true } oracleA rfl


theorem Fraction.make_reduced (n d : ℤ) (hd : d ≠ 0) : Reduced (Fraction.make n d) := by
  have hg : 0 < Int.gcd n d := Int.gcd_pos_iff.mpr (Or.inr hd)
  have hco0 := Int.gcd_div_gcd_div_gcd (i := n) (j := d) hg
  have hgz : ((Int.gcd n d : ℕ) : ℤ) ≠ 0 := by exact_mod_cast hg.ne'
  have hgpos : (0 : ℤ) < ((Int.gcd n d : ℕ) : ℤ) := by exact_mod_cast hg
  have key : ∀ x y : ℤ, x = ((Int.gcd n d : ℕ) : ℤ) * y → x / ((Int.gcd n d : ℕ) : ℤ) = y := by
    intro x y hxy
    rw [hxy, Int.mul_ediv_cancel_left _ hgz]
  obtain ⟨m, hm⟩ := (Int.gcd_dvd_left : ((Int.gcd n d : ℕ) : ℤ) ∣ n)
  obtain ⟨k, hk⟩ := (Int.gcd_dvd_right : ((Int.gcd n d : ℕ) : ℤ) ∣ d)
  have hnq := key n m hm
  have hdq := key d k hk
  have hco : Int.gcd m k = 1 := by rwa [hnq, hdq] at hco0
  by_cases hneg : d < 0
  · have hk0 : k < 0 := by nlinarith [hk, hgpos, hneg]
    have hmk : Fraction.make n d = ⟨-m, ((-k : ℤ)).toNat⟩ := by
      simp only [Fraction.make, if_neg hd, if_pos hneg]
      rw [Int.ediv_neg, Int.ediv_neg, hnq, hdq]
    rw [hmk]
    constructor
    · show 0 < ((-k : ℤ)).toNat
      omega
    · show Nat.gcd ((-m : ℤ)).natAbs ((-k : ℤ)).toNat = 1
      have e3 : ((-k : ℤ)).toNat = ((-k : ℤ)).natAbs := by omega
      rw [e3]
      show Int.gcd (-m) (-k) = 1
      rw [Int.neg_gcd, Int.gcd_neg]
      exact hco
  · have hk0 : 0 < k := by
      rcases lt_trichotomy k 0 with h | h | h
      · nlinarith [hk, hgpos]
      · rw [h, mul_zero] at hk
        exact absurd hk hd
      · exact h
    have hmk : Fraction.make n d = ⟨m, (k : ℤ).toNat⟩ := by
      simp only [Fraction.make, if_neg hd, if_neg hneg]
      rw [hnq, hdq]
    rw [hmk]
    constructor
    · show 0 < (k : ℤ).toNat
      omega
    · show Nat.gcd (m : ℤ).natAbs (k : ℤ).toNat = 1
      have e3 : (k : ℤ).toNat = (k : ℤ).natAbs := by omega
      rw [e3]
      exact hco

theorem Fraction.make_coe (n d : ℕ) (hg : Nat.gcd n d = 1) (hd : 0 < d) :
    Fraction.make (n : ℤ) (d : ℤ) = ⟨(n : ℤ), d⟩ := by
  have hd0 : ((d : ℕ) : ℤ) ≠ 0 := by exact_mod_cast hd.ne'
  have hdneg : ¬(((d : ℕ) : ℤ) < 0) := by simp
  have hg1 : Int.gcd (n : ℤ) (d : ℤ) = 1 := by
    rw [Int.gcd_natCast_natCast]
    exact hg
  simp only [Fraction.make, if_neg hd0, if_neg hdneg, hg1]
  norm_num

theorem Fraction.make_neg (n d : ℤ) : Fraction.make (-n) d = Fraction.neg (Fraction.make n d) := by
  by_cases hd : d = 0
  · subst hd
    simp [Fraction.make, Fraction.neg]
  · have hg : 0 < Int.gcd n d := Int.gcd_pos_iff.mpr (Or.inr hd)
    have hgz : ((Int.gcd n d : ℕ) : ℤ) ≠ 0 := by exact_mod_cast hg.ne'
    have key : ∀ x y : ℤ, x = ((Int.gcd n d : ℕ) : ℤ) * y → x / ((Int.gcd n d : ℕ) : ℤ) = y := by
      intro x y hxy
      rw [hxy, Int.mul_ediv_cancel_left _ hgz]
    obtain ⟨m, hm⟩ := (Int.gcd_dvd_left : ((Int.gcd n d : ℕ) : ℤ) ∣ n)
    have hnq := key n m hm
    have hnq2 := key (-n) (-m) (by linear_combination -hm)
    simp only [Fraction.make, if_neg hd, Int.neg_gcd, Fraction.neg]
    by_cases hneg : d < 0
    · simp only [if_pos hneg]
      congr 1
      rw [Int.ediv_neg, Int.ediv_neg, hnq, hnq2]
    · simp only [if_neg hneg]
      congr 1
      rw [hnq, hnq2]

theorem Fraction.add_com (a b : Fraction) : Fraction.add a b = Fraction.add b a := by
  unfold Fraction.add
  rw [add_comm (a.numerator * (b.denominator : ℤ)), mul_comm ((a.denominator : ℤ))]

theorem Fraction.sub_rev (a b : Fraction) : Fraction.sub b a = Fraction.neg (Fraction.sub a b) := by
  unfold Fraction.sub
  rw [← Fraction.make_neg, neg_sub, mul_comm ((a.denominator : ℤ))]

theorem reduced_eq_iff (a b : Fraction) (ha : Reduced a) (hb : Reduced b) :
    (a = b ↔ a.numerator * (b.denominator : ℤ) = b.numerator * (a.denominator : ℤ)) := by
  constructor
  · intro h
    rw [h]
  · intro h
    obtain ⟨had, hag⟩ := ha
    obtain ⟨hbd, hbg⟩ := hb
    have h1 : a.denominator ∣ a.numerator.natAbs * b.denominator := by
      have hz : ((a.denominator : ℕ) : ℤ) ∣ a.numerator * (b.denominator : ℤ) := by
        rw [h]
        exact dvd_mul_left _ _
      have := Int.natAbs_dvd_natAbs.mpr hz
      simpa [Int.natAbs_mul] using this
    have h2 : b.denominator ∣ b.numerator.natAbs * a.denominator := by
      have hz : ((b.denominator : ℕ) : ℤ) ∣ b.numerator * (a.denominator : ℤ) := by
        rw [← h]
        exact dvd_mul_left _ _
      have := Int.natAbs_dvd_natAbs.mpr hz
      simpa [Int.natAbs_mul] using this
    have hab : a.denominator ∣ b.denominator :=
      (Nat.coprime_comm.mp hag).dvd_of_dvd_mul_left h1
    have hba : b.denominator ∣ a.denominator :=
      (Nat.coprime_comm.mp hbg).dvd_of_dvd_mul_left h2
    have hden : a.denominator = b.denominator := Nat.dvd_antisymm hab hba
    have hnum : a.numerator = b.numerator := by
      rw [hden] at h
      exact mul_right_cancel₀ (by exact_mod_cast hbd.ne') h
    cases a
    cases b
    simp only at hnum hden
    rw [hnum, hden]

/-- Claim C8 as amended: after every `Guess.reset(left, right, op)` the
stored `want` is nonnegative; applying the operator to the displayed
operands in display order yields `want` whenever the operator is Subtract,
and also for Add when the raw result was nonnegative; when the operator is
Add and the raw sum was negative (impossible for the program's positive
operands), swapping cannot change the sum's sign, so the displayed operands
yield `-want` instead. -/
theorem c8_theorem (l r : Fraction) (op : Operator) :
    0 ≤ (Guess.reset l r op).want.numerator ∧
      (op = Operator.SUB →
        Operator.op op (Guess.reset l r op).left (Guess.reset l r op).right =
          (Guess.reset l r op).want) ∧
      (0 ≤ (Operator.op op l r).numerator →
        Operator.op op (Guess.reset l r op).left (Guess.reset l r op).right =
          (Guess.reset l r op).want) ∧
      ((Operator.op op l r).numerator < 0 → op = Operator.ADD →
        Operator.op op (Guess.reset l r op).left (Guess.reset l r op).right =
          Fraction.neg ((Guess.reset l r op).want)) := by
  by_cases h : 0 ≤ (Operator.op op l r).numerator
  · have hg : Guess.reset l r op = ⟨l, r, Operator.op op l r, false, op, 0⟩ := by
      unfold Guess.reset
      rw [if_pos h]
    rw [hg]
    refine ⟨h, ?_, ?_, ?_⟩
    · intro _
      rfl
    · intro _
      rfl
    · intro hneg _
      omega
  · have hg : Guess.reset l r op =
        ⟨r, l, Fraction.neg (Operator.op op l r), true, op, 0⟩ := by
      unfold Guess.reset
      rw [if_neg h]
    rw [hg]
    refine ⟨?_, ?_, ?_, ?_⟩
    · show 0 ≤ -(Operator.op op l r).numerator
      omega
    · intro hop
      subst hop
      show Operator.op Operator.SUB r l = Fraction.neg (Operator.op Operator.SUB l r)
      exact Fraction.sub_rev l r
    · intro h0
      exact absurd h0 h
    · intro _ hop
      subst hop
      show Operator.op Operator.ADD r l =
        Fraction.neg (Fraction.neg (Operator.op Operator.ADD l r))
      have : Fraction.neg (Fraction.neg (Operator.op Operator.ADD l r)) =
          Operator.op Operator.ADD l r := by
        simp [Fraction.neg]
      rw [this]
      exact Fraction.add_com r l

/-- Claim C8 witness: a concrete swapped subtraction, `reset(1/8, 3/2, SUB)`:
the stored want is nonnegative and the subtraction of the displayed operands
equals it. -/
theorem c8_witness :
    0 ≤ (Guess.reset (Fraction.make 1 8) (Fraction.make 3 2) Operator.SUB).want.numerator ∧
      Operator.op Operator.SUB
          (Guess.reset (Fraction.make 1 8) (Fraction.make 3 2) Operator.SUB).left
          (Guess.reset (Fraction.make 1 8) (Fraction.make 3 2) Operator.SUB).right =
        (Guess.reset (Fraction.make 1 8) (Fraction.make 3 2) Operator.SUB).want :=
  ⟨(c8_theorem (Fraction.make 1 8) (Fraction.make 3 2) Operator.SUB).1,
    (c8_theorem (Fraction.make 1 8) (Fraction.make 3 2) Operator.SUB).2.1 rfl⟩

/-- A successful `Fraction(n, d)` at a parse site yields a reduced fraction. -/
theorem mkParsed_ok (n : ℤ) (d : ℕ) {f : Fraction} (h : mkParsed n d = ParseResult.ok f) :
    Reduced f := by
  unfold mkParsed at h
  by_cases hd : d = 0
  · rw [if_pos hd] at h
    exact ParseResult.noConfusion h
  · rw [if_neg hd] at h
    have hr := Fraction.make_reduced n (d : ℤ) (by exact_mod_cast hd)
    cases h
    exact hr

/-- Every success of the decimal/exponent tail is produced by `mkParsed`. -/
theorem fracTail_ok (neg : Bool) (numDs cs3 : List Char) {f : Fraction}
    (h : fracTail neg numDs cs3 = ParseResult.ok f) : Reduced f := by
  simp only [fracTail] at h
  repeat' split at h
  all_goals
    first
      | exact ParseResult.noConfusion h
      | exact mkParsed_ok _ _ h

/-- Every success of the string constructor is produced by `mkParsed`. -/
theorem pyFracOfString_ok (cs : List Char) {f : Fraction}
    (h : pyFracOfString cs = ParseResult.ok f) : Reduced f := by
  simp only [pyFracOfString] at h
  repeat' split at h
  all_goals
    first
      | exact ParseResult.noConfusion h
      | exact mkParsed_ok _ _ h
      | exact fracTail_ok _ _ _ h

/-- A successful parse yields a reduced fraction. -/
theorem parse_ok (s : String) {f : Fraction} (h : parse s = ParseResult.ok f) : Reduced f := by
  unfold parse at h
  split at h
  · exact mkParsed_ok _ _ h
  · exact pyFracOfString_ok _ h

/-- Claim C9: every rational the program constructs — by normalising
construction, by random generation, by arithmetic (including the `want` of
every problem), and by parsing — has a positive denominator and numerator
coprime to it, the sign carried by the numerator. -/
theorem c9_theorem :
    (∀ n d : ℤ, d ≠ 0 → Reduced (Fraction.make n d)) ∧
      (∀ draw denominator : ℕ, denominator ≠ 0 →
        Reduced (get_random_fraction draw denominator)) ∧
      (∀ a b : Fraction, Reduced a → Reduced b →
        Reduced (Fraction.add a b) ∧ Reduced (Fraction.sub a b)) ∧
      (∀ f : Fraction, Reduced f → Reduced (Fraction.neg f)) ∧
      (∀ (l r : Fraction) (op : Operator), Reduced l → Reduced r →
        Reduced ((Guess.reset l r op).want)) ∧
      (∀ (s : String) (f : Fraction), parse s = ParseResult.ok f → Reduced f) := by
  have hneg : ∀ f : Fraction, Reduced f → Reduced (Fraction.neg f) := by
    intro f hf
    obtain ⟨h1, h2⟩ := hf
    exact ⟨h1, by simpa [Fraction.neg, Int.natAbs_neg] using h2⟩
  have hadd : ∀ a b : Fraction, Reduced a → Reduced b →
      Reduced (Fraction.add a b) ∧ Reduced (Fraction.sub a b) := by
    intro a b ha hb
    have hd : ((a.denominator : ℤ)) * ((b.denominator : ℤ)) ≠ 0 := by
      have h1 : (0:ℤ) < (a.denominator : ℤ) := by exact_mod_cast ha.1
      have h2 : (0:ℤ) < (b.denominator : ℤ) := by exact_mod_cast hb.1
      positivity
    exact ⟨Fraction.make_reduced _ _ hd, Fraction.make_reduced _ _ hd⟩
  refine ⟨fun n d hd => Fraction.make_reduced n d hd, ?_, hadd, hneg, ?_, fun s f h => parse_ok s h⟩
  · intro draw denominator hd
    exact Fraction.make_reduced _ _ (by exact_mod_cast hd)
  · intro l r op hl hr
    have hop : Reduced (Operator.op op l r) := by
      cases op
      · exact (hadd l r hl hr).1
      · exact (hadd l r hl hr).2
    by_cases h : 0 ≤ (Operator.op op l r).numerator
    · have hg : Guess.reset l r op = ⟨l, r, Operator.op op l r, false, op, 0⟩ := by
        unfold Guess.reset
        rw [if_pos h]
      rw [hg]
      exact hop
    · have hg : Guess.reset l r op = ⟨r, l, Fraction.neg (Operator.op op l r), true, op, 0⟩ := by
        unfold Guess.reset
        rw [if_neg h]
      rw [hg]
      exact hneg _ hop

/-- Claim C9 witness: concrete instances of each construction path. -/
theorem c9_witness :
    Reduced (Fraction.make 6 8) ∧ Reduced (get_random_fraction 3 16) ∧
      Reduced (Fraction.neg (Fraction.make 1 2)) ∧
      Reduced ((Guess.reset (Fraction.make 1 2) (Fraction.make 3 4) Operator.SUB).want) ∧
      Reduced (⟨11, 8⟩ : Fraction) :=
  ⟨c9_theorem.1 6 8 (by decide),
    c9_theorem.2.1 3 16 (by decide),
    c9_theorem.2.2.2.1 (Fraction.make 1 2) (c9_theorem.1 1 2 (by decide)),
    c9_theorem.2.2.2.2.1 (Fraction.make 1 2) (Fraction.make 3 4) Operator.SUB
      (c9_theorem.1 1 2 (by decide)) (c9_theorem.1 3 4 (by decide)),
    c9_theorem.2.2.2.2.2 ("1-3/8") ⟨11, 8⟩ (by decide)⟩

/-- Claim C1 as amended: for every input line the parser either succeeds or
fails; a `ValueError` (ParseError) is recovered locally — the loop continues
with no counter changed — but a zero-denominator answer such as `5/0` or
`1-2/0` raises `ZeroDivisionError`, which no handler catches, and the error
escapes the session loop; no other input line escapes. -/
theorem c1_theorem (cfg : Config) (s : Session) (o : Oracle) (raw : String) :
    ((step cfg s o (Event.line raw)).isCrash = true ↔
        parse (pyStrip raw) = ParseResult.divByZero) ∧
      (parse (pyStrip raw) = ParseResult.parseError →
        ∃ s2, step cfg s o (Event.line raw) = StepResult.next s2 ∧
          s2.correct = s.correct ∧ s2.incorrect = s.incorrect ∧ s2.skipped = s.skipped ∧
          s2.rpt = true) := by
  constructor
  · cases h : parse (pyStrip raw) with
    | ok got =>
      simp only [step, h]
      split <;> simp [StepResult.isCrash]
    | parseError =>
      simp [step, h, StepResult.isCrash]
    | divByZero =>
      simp [step, h, StepResult.isCrash]
  · intro h
    have hs : step cfg s o (Event.line raw) = StepResult.next
        { s with
            guess := ⟨(promptedGuess s o).left, (promptedGuess s o).right,
              (promptedGuess s o).want, (promptedGuess s o).wantIsBase,
              (promptedGuess s o).op, (promptedGuess s o).n + 1⟩
            first := false
            interrupts := 0
            rpt := true } := by
      simp [step, h]
    exact ⟨_, hs, rfl, rfl, rfl, rfl⟩

/-- Claim C5 as amended: on malformed input none of the counters changes and
the session keeps re-prompting the same problem; the repeat flag however
does not merely stay at its prior value — the handler always sets it to
`true` (so a problem freshly generated this iteration is re-asked rather
than replaced). -/
theorem c5_theorem (cfg : Config) (s : Session) (o : Oracle) (raw : String)
    (h : parse (pyStrip raw) = ParseResult.parseError) :
    ∃ s2, step cfg s o (Event.line raw) = StepResult.next s2 ∧
      s2.correct = s.correct ∧ s2.incorrect = s.incorrect ∧ s2.skipped = s.skipped ∧
      s2.rpt = true ∧ s2.first = false ∧
      s2.guess.left = (promptedGuess s o).left ∧
      s2.guess.right = (promptedGuess s o).right ∧
      s2.guess.op = (promptedGuess s o).op ∧
      s2.guess.want = (promptedGuess s o).want ∧
      (∀ o2 : Oracle, promptedGuess s2 o2 = s2.guess) := by
  have hs : step cfg s o (Event.line raw) = StepResult.next
      { s with
          guess := ⟨(promptedGuess s o).left, (promptedGuess s o).right,
            (promptedGuess s o).want, (promptedGuess s o).wantIsBase,
            (promptedGuess s o).op, (promptedGuess s o).n + 1⟩
          first := false
          interrupts := 0
          rpt := true } := by
    simp [step, h]
  refine ⟨_, hs, rfl, rfl, rfl, rfl, rfl, rfl, rfl, rfl, rfl, ?_⟩
  intro o2
  simp [promptedGuess]

/-- Claim C1 witness: the mixed-number spelling of a zero denominator,
`1-2/0`, escapes the loop. -/
theorem c1_witness :
    (step cfgValue Session.init oracleA (Event.line ("1-2/0"))).isCrash = true :=
  (c1_theorem cfgValue Session.init oracleA ("1-2/0")).1.mpr (by decide)

/-- Claim C5 witness: after the malformed line `abc` the repeat flag reads
`true`. -/
theorem c5_witness :
    (step cfgValue Session.init oracleA (Event.line ("abc"))).sess.rpt = true := by
  obtain ⟨s2, hs, _, _, _, hr, _⟩ :=
    c5_theorem cfgValue Session.init oracleA ("abc") (by decide)
  rw [hs]
  exact hr

/-- Claim C2 as amended: for every attempt whose input parses, the answer is
judged correct — the correct counter is bumped — exactly when, in canonical
mode, the input line *after stripping surrounding whitespace* equals
character for character the string of `want` (so internal-whitespace or
other representation variants are rejected, but a line differing only by
surrounding whitespace is accepted), and, in non-canonical mode, exactly
when the parsed value equals `want` (both being reduced, representation
equality coincides with exact rational equality, as the last conjunct
states; the second conjunct records that the compared string of `want` is
the canonical mixed rendering for every sub-unit `want`, which covers every
swapped problem the program can build). -/
theorem c2_theorem (cfg : Config) (s : Session) (o : Oracle) (raw : String) (got : Fraction)
    (h : parse (pyStrip raw) = ParseResult.ok got) :
    ((step cfg s o (Event.line raw)).sess.correct = s.correct + 1 ↔
        ((cfg.canonical = true ∧ pyStrip raw = (promptedGuess s o).wantStr) ∨
          (cfg.canonical = false ∧ got = (promptedGuess s o).want))) ∧
      (∀ g : Guess, g.want.numerator < (g.want.denominator : ℤ) → g.wantStr = g.want.str) ∧
      (∀ a b : Fraction, Reduced a → Reduced b →
        (a = b ↔ a.numerator * (b.denominator : ℤ) = b.numerator * (a.denominator : ℤ))) := by
  refine ⟨?_, ?_, reduced_eq_iff⟩
  · simp only [step, h]
    rw [apply_ite StepResult.sess, apply_ite Session.correct]
    simp only [StepResult.sess]
    split <;> rename_i hcond
    · constructor
      · intro _
        cases hcb : cfg.canonical with
        | true =>
          rw [hcb] at hcond
          simp only [Bool.true_and, Bool.not_true, Bool.false_and, Bool.or_false,
            beq_iff_eq] at hcond
          exact Or.inl ⟨rfl, hcond⟩
        | false =>
          rw [hcb] at hcond
          simp only [Bool.false_and, Bool.not_false, Bool.true_and, Bool.false_or,
            beq_iff_eq] at hcond
          exact Or.inr ⟨rfl, hcond⟩
      · intro _
        rfl
    · constructor
      · intro hcc
        exact absurd hcc (by omega)
      · intro hor
        exfalso
        apply hcond
        rcases hor with ⟨hcb, he⟩ | ⟨hcb, he⟩
        · rw [hcb]
          simp only [Bool.true_and, Bool.not_true, Bool.false_and, Bool.or_false, beq_iff_eq]
          exact he
        · rw [hcb]
          simp only [Bool.false_and, Bool.not_false, Bool.true_and, Bool.false_or, beq_iff_eq]
          exact he
  · intro g hlt
    unfold Guess.wantStr Fraction.str
    rw [if_neg (not_le.mpr hlt)]
    split <;> rfl

/-- Claim C2 witness: in value mode, the non-canonical spelling `2/4` of
`1/2` is judged correct. -/
theorem c2_witness :
    (step cfgValue sessionHalf oracleA (Event.line ("2/4"))).sess.correct =
      sessionHalf.correct + 1 :=
  (c2_theorem cfgValue sessionHalf oracleA ("2/4") ⟨1, 2⟩ (by decide)).1.mpr
    (Or.inr ⟨rfl, by decide⟩)

/-- The fuel-based base-2 logarithm meets its specification whenever the
fuel covers the argument. -/
theorem natLog2Aux_spec : ∀ fuel n : ℕ, 1 ≤ n → n ≤ fuel →
    2 ^ natLog2Aux fuel n ≤ n ∧ n < 2 ^ (natLog2Aux fuel n + 1) := by
  intro fuel
  induction fuel with
  | zero =>
    intro n h1 h2
    omega
  | succ fuel ih =>
    intro n h1 h2
    by_cases hn : n < 2
    · simp only [natLog2Aux, if_pos hn]
      constructor
      · simpa using h1
      · simpa using hn
    · simp only [natLog2Aux, if_neg hn]
      have hd1 : 1 ≤ n / 2 := by omega
      have hd2 : n / 2 ≤ fuel := by omega
      obtain ⟨ha, hb⟩ := ih (n / 2) hd1 hd2
      constructor
      · calc 2 ^ (natLog2Aux fuel (n / 2) + 1)
            = 2 * 2 ^ (natLog2Aux fuel (n / 2)) := by ring
          _ ≤ n := by omega
      · calc n < 2 * (n / 2 + 1) := by omega
          _ ≤ 2 * 2 ^ (natLog2Aux fuel (n / 2) + 1) := by omega
          _ = 2 ^ (natLog2Aux fuel (n / 2) + 1 + 1) := by ring

/-- `2 ^ natLog2 n ≤ n < 2 ^ (natLog2 n + 1)` for positive `n`. -/
theorem natLog2_spec (n : ℕ) (h : 1 ≤ n) :
    2 ^ natLog2 n ≤ n ∧ n < 2 ^ (natLog2 n + 1) :=
  natLog2Aux_spec n n h le_rfl

/-- Scaling, rounding to the nearest (ties to even) and scaling back cannot
move a quotient across an integer while the divisor is below twice the
scale: the core of why binary64 division is exact enough below `2^53`. -/
theorem rnd2even_div (a b S : ℕ) (hb : 0 < b) (hS : b < 2 * S) :
    rnd2even (a * S) b / S = a / b := by
  have hS0 : 0 < S := by omega
  have hmod := Nat.div_add_mod a b
  have hrb : a % b < b := Nat.mod_lt _ hb
  have hexp : a * S = (a % b) * S + b * (a / b * S) := by
    calc a * S = (b * (a / b) + a % b) * S := by rw [hmod]
      _ = (a % b) * S + b * (a / b * S) := by ring
  have hdiv : a * S / b = (a % b) * S / b + a / b * S := by
    rw [hexp, Nat.add_mul_div_left _ _ hb]
  have hmod2 : a * S % b = (a % b) * S % b := by
    rw [hexp, Nat.add_mul_mod_self_left]
  have htS : (a % b) * S / b < S :=
    Nat.div_lt_of_lt_mul ((Nat.mul_lt_mul_right hS0).mpr hrb)
  have hexcl : b ≤ 2 * ((a % b) * S % b) → (a % b) * S / b + 1 ≠ S := by
    intro h2u heq
    have h1 : (a % b) * S + S ≤ b * S := by
      calc (a % b) * S + S = (a % b + 1) * S := by ring
        _ ≤ b * S := Nat.mul_le_mul_right S hrb
    have h2 : b * S = b * ((a % b) * S / b) + b := by
      calc b * S = b * ((a % b) * S / b + 1) := by rw [heq]
        _ = b * ((a % b) * S / b) + b := by ring
    have htu2 := Nat.div_add_mod ((a % b) * S) b
    omega
  have hqt : ∀ w, w < S → (a / b * S + w) / S = a / b := by
    intro w hw
    rw [show a / b * S + w = w + S * (a / b) by ring, Nat.add_mul_div_left _ _ hS0,
      Nat.div_eq_of_lt hw, Nat.zero_add]
  unfold rnd2even
  rw [hdiv, hmod2]
  rcases Nat.lt_trichotomy (2 * ((a % b) * S % b)) b with hcmp | hcmp | hcmp
  · rw [if_pos hcmp]
    rw [show (a % b) * S / b + a / b * S = a / b * S + (a % b) * S / b by ring]
    exact hqt _ htS
  · rw [if_neg (by omega), if_neg (by omega)]
    have ht1 : (a % b) * S / b + 1 < S := by
      have := hexcl (by omega)
      omega
    split
    · rw [show (a % b) * S / b + a / b * S = a / b * S + (a % b) * S / b by ring]
      exact hqt _ htS
    · rw [show (a % b) * S / b + a / b * S + 1 = a / b * S + ((a % b) * S / b + 1) by ring]
      exact hqt _ ht1
  · rw [if_neg (by omega), if_pos hcmp]
    have ht1 : (a % b) * S / b + 1 < S := by
      have := hexcl (by omega)
      omega
    rw [show (a % b) * S / b + a / b * S + 1 = a / b * S + ((a % b) * S / b + 1) by ring]
    exact hqt _ ht1

/-- Below `2^53` the float-truncated division agrees with exact floor
division. -/
theorem pyIntDiv_eq (a b : ℕ) (ha : a < 2 ^ 53) : pyIntDiv a b = a / b := by
  unfold pyIntDiv
  split
  · rfl
  · rename_i hcase
    push_neg at hcase
    obtain ⟨hba, hb0⟩ := hcase
    have hba' : b ≤ a := by omega
    have hb : 0 < b := Nat.pos_of_ne_zero hb0
    have hm1 : 1 ≤ a / b := (Nat.one_le_div_iff hb).mpr hba'
    obtain ⟨hlog1, hlog2⟩ := natLog2_spec (a / b) hm1
    have he52 : natLog2 (a / b) ≤ 52 := by
      have h1 : 2 ^ natLog2 (a / b) ≤ a := le_trans hlog1 (Nat.div_le_self a b)
      have h2 : 2 ^ natLog2 (a / b) < 2 ^ 53 := lt_of_le_of_lt h1 ha
      have h3 : natLog2 (a / b) < 53 := (Nat.pow_lt_pow_iff_right (by omega)).mp h2
      omega
    rw [if_pos he52]
    have hble : 2 ^ natLog2 (a / b) * b ≤ a := (Nat.le_div_iff_mul_le hb).mp hlog1
    have hbs : b < 2 * 2 ^ (52 - natLog2 (a / b)) := by
      by_contra hcon
      push_neg at hcon
      have hmul : 2 ^ natLog2 (a / b) * (2 * 2 ^ (52 - natLog2 (a / b))) ≤
          2 ^ natLog2 (a / b) * b := Nat.mul_le_mul_left _ hcon
      have heq : 2 ^ natLog2 (a / b) * (2 * 2 ^ (52 - natLog2 (a / b))) = 2 ^ 53 := by
        rw [show 2 ^ natLog2 (a / b) * (2 * 2 ^ (52 - natLog2 (a / b))) =
            2 ^ (natLog2 (a / b) + 1 + (52 - natLog2 (a / b))) from by
          rw [pow_add, pow_add]
          ring]
        congr 1
        omega
      rw [heq] at hmul
      omega
    exact rnd2even_div a b (2 ^ (52 - natLog2 (a / b))) hb hbs

/-- Claim C6 as amended: for every reduced fraction whose numerator
magnitude stays below `2^53` — the region where the code's
`int(numerator / denominator)` equals the floor — `format` renders values
with `numerator ≥ denominator` as `"{whole}-{rest}"` with `whole` the floor
of the quotient and `rest` the (already reduced) remainder fraction,
renders whole numbers as the bare integer with no `-0/d` tail, renders
values below 1 with denominator 1 (zero and negative integers) as the bare
integer, and renders every other value below 1 as
`"{numerator}/{denominator}"`. -/
theorem c6_theorem (f : Fraction) (hf : Reduced f) (hn : f.numerator.natAbs < 2 ^ 53) :
    Fraction.str f = specStr f := by
  obtain ⟨hd, hg⟩ := hf
  unfold Fraction.str specStr
  by_cases hge : (f.denominator : ℤ) ≤ f.numerator
  · rw [if_pos hge, if_pos hge]
    have hnn : (0 : ℤ) ≤ f.numerator := by
      have : (0 : ℤ) < (f.denominator : ℤ) := by exact_mod_cast hd
      omega
    have htn : f.numerator.toNat = f.numerator.natAbs := by omega
    have hlt : f.numerator.toNat < 2 ^ 53 := by
      have h53 : (2 : ℕ) ^ 53 = 9007199254740992 := by norm_num
      omega
    rw [pyIntDiv_eq _ _ hlt]
    by_cases hr : f.numerator.toNat % f.denominator = 0
    · rw [if_pos hr, if_pos hr]
    · rw [if_neg hr, if_neg hr]
      have hgr : Nat.gcd (f.numerator.toNat % f.denominator) f.denominator = 1 := by
        rw [← Nat.gcd_rec, Nat.gcd_comm, htn]
        exact hg
      rw [Fraction.make_coe (f.numerator.toNat % f.denominator) f.denominator hgr hd]
      unfold Fraction.strPlain
      have hd1 : f.denominator ≠ 1 := by
        intro h1
        apply hr
        rw [h1, Nat.mod_one]
      rw [if_neg hd1]
      simp only [String.append_assoc]
      rw [show toString ((f.numerator.toNat % f.denominator : ℕ) : ℤ) =
          toString (f.numerator.toNat % f.denominator) from rfl]
  · rw [if_neg hge, if_neg hge]
    unfold Fraction.strPlain
    rfl

/-- Claim C6 witness: the amended rendering agrees on `11/8`. -/
theorem c6_witness : Fraction.str (Fraction.make 11 8) = specStr (Fraction.make 11 8) :=
  c6_theorem (Fraction.make 11 8) (by decide) (by decide)

/-- Shape of an interrupt step while fewer than 2 consecutive interrupts
are pending: the loop continues with the counter bumped. -/
theorem step_interrupt_lt (cfg : Config) (s : Session) (o : Oracle) (h : s.interrupts < 2) :
    step cfg s o Event.interrupt = StepResult.next
      { s with
          guess := ⟨(promptedGuess s o).left, (promptedGuess s o).right,
            (promptedGuess s o).want, (promptedGuess s o).wantIsBase,
            (promptedGuess s o).op, (promptedGuess s o).n + 1⟩
          first := false
          interrupts := s.interrupts + 1
          skipped := s.skipped + 1
          rpt := false } := by
  simp only [step]
  rw [if_neg (by omega)]

/-- Shape of the 3rd consecutive interrupt: the loop breaks. -/
theorem step_interrupt_ge (cfg : Config) (s : Session) (o : Oracle) (h : 2 ≤ s.interrupts) :
    step cfg s o Event.interrupt = StepResult.quitInterrupts
      { s with
          guess := ⟨(promptedGuess s o).left, (promptedGuess s o).right,
            (promptedGuess s o).want, (promptedGuess s o).wantIsBase,
            (promptedGuess s o).op, (promptedGuess s o).n + 1⟩
          first := false
          interrupts := s.interrupts + 1
          skipped := s.skipped + 1
          rpt := false } := by
  simp only [step]
  rw [if_pos (by omega)]

/-- Any read line that does not crash the loop continues it, with the
consecutive-interrupt counter reset to 0 — parsed or not. -/
theorem step_line_next (cfg : Config) (s : Session) (o : Oracle) (raw : String)
    (h : parse (pyStrip raw) ≠ ParseResult.divByZero) :
    ∃ s2, step cfg s o (Event.line raw) = StepResult.next s2 ∧ s2.interrupts = 0 := by
  cases hp : parse (pyStrip raw) with
  | divByZero => exact absurd hp h
  | parseError =>
    refine ⟨{ s with
        guess := ⟨(promptedGuess s o).left, (promptedGuess s o).right,
          (promptedGuess s o).want, (promptedGuess s o).wantIsBase,
          (promptedGuess s o).op, (promptedGuess s o).n + 1⟩
        first := false
        interrupts := 0
        rpt := true }, ?_, rfl⟩
    simp [step, hp]
  | ok got =>
    simp only [step, hp]
    split
    · exact ⟨_, rfl, rfl⟩
    · exact ⟨_, rfl, rfl⟩

/-- An interrupt arriving with 2 consecutive interrupts already pending
stops the session, whatever follows. -/
theorem runList_stops1 (cfg : Config) (s : Session) (o : Oracle)
    (r : List (Oracle × Event)) (h : 2 ≤ s.interrupts) :
    (runList cfg s ((o, Event.interrupt) :: r)).isStoppedInterrupts = true := by
  simp only [runList, step_interrupt_ge cfg s o h, Outcome.isStoppedInterrupts]

/-- Two back-to-back interrupts stop the session when one is already
pending. -/
theorem runList_stops2 (cfg : Config) (s : Session) (o2 o3 : Oracle)
    (r : List (Oracle × Event)) (h : 1 ≤ s.interrupts) :
    (runList cfg s ((o2, Event.interrupt) :: (o3, Event.interrupt) :: r)).isStoppedInterrupts
      = true := by
  by_cases h2 : 2 ≤ s.interrupts
  · exact runList_stops1 cfg s o2 _ h2
  · simp only [runList, step_interrupt_lt cfg s o2 (by omega)]
    exact runList_stops1 cfg _ o3 r (by show 2 ≤ s.interrupts + 1; omega)

/-- Three back-to-back interrupts stop the session from any state. -/
theorem runList_stops3 (cfg : Config) (s : Session) (o1 o2 o3 : Oracle)
    (r : List (Oracle × Event)) :
    (runList cfg s ((o1, Event.interrupt) :: (o2, Event.interrupt) ::
      (o3, Event.interrupt) :: r)).isStoppedInterrupts = true := by
  by_cases h2 : 2 ≤ s.interrupts
  · exact runList_stops1 cfg s o1 _ h2
  · simp only [runList, step_interrupt_lt cfg s o1 (by omega)]
    exact runList_stops2 cfg _ o2 o3 r (by show 1 ≤ s.interrupts + 1; omega)

/-- A triple stays a triple after prepending an event. -/
theorem HasTriple.cons (p : Oracle × Event) (t : List (Oracle × Event)) (h : HasTriple t) :
    HasTriple (p :: t) := by
  obtain ⟨l, o1, o2, o3, r, rfl⟩ := h
  exact ⟨p :: l, o1, o2, o3, r, rfl⟩

/-- A trace beginning with at least 3 interrupts contains a triple. -/
theorem hasTriple_of_leadInts (t : List (Oracle × Event)) (h : 3 ≤ leadInts t) :
    HasTriple t := by
  have peel : ∀ (p : Oracle × Event) (t2 : List (Oracle × Event)) (k : ℕ),
      k + 1 ≤ leadInts (p :: t2) → p.2 = Event.interrupt ∧ k ≤ leadInts t2 := by
    intro p t2 k hk
    unfold leadInts at hk
    split at hk
    · rename_i hp
      exact ⟨hp, by omega⟩
    · omega
  rcases t with _ | ⟨⟨o1, e1⟩, t1⟩
  · simp [leadInts] at h
  obtain ⟨he1, ha⟩ := peel (o1, e1) t1 2 h
  have he1' : e1 = Event.interrupt := he1
  subst he1'
  rcases t1 with _ | ⟨⟨o2, e2⟩, t2⟩
  · simp [leadInts] at ha
  obtain ⟨he2, hb⟩ := peel (o2, e2) t2 1 ha
  have he2' : e2 = Event.interrupt := he2
  subst he2'
  rcases t2 with _ | ⟨⟨o3, e3⟩, t3⟩
  · simp [leadInts] at hb
  obtain ⟨he3, _⟩ := peel (o3, e3) t3 0 hb
  have he3' : e3 = Event.interrupt := he3
  subst he3'
  exact ⟨[], o1, o2, o3, t3, rfl⟩

/-- Three contiguous interrupts, after any prefix free of end-of-input and
of crashing lines, stop the session through the repeated-interrupts
break. -/
theorem runList_stops_of_triple (cfg : Config) :
    ∀ (l : List (Oracle × Event)) (s : Session) (o1 o2 o3 : Oracle)
      (r : List (Oracle × Event)),
      (∀ p ∈ l, p.2 ≠ Event.eof) →
      (∀ p ∈ l, ∀ raw, p.2 = Event.line raw → parse (pyStrip raw) ≠ ParseResult.divByZero) →
      (runList cfg s (l ++ (o1, Event.interrupt) :: (o2, Event.interrupt) ::
        (o3, Event.interrupt) :: r)).isStoppedInterrupts = true := by
  intro l
  induction l with
  | nil =>
    intro s o1 o2 o3 r _ _
    simp only [List.nil_append]
    exact runList_stops3 cfg s o1 o2 o3 r
  | cons p l ih =>
    intro s o1 o2 o3 r hne hnc
    obtain ⟨o, ev⟩ := p
    have hne' : ∀ q ∈ l, q.2 ≠ Event.eof := fun q hq => hne q (List.mem_cons_of_mem _ hq)
    have hnc' : ∀ q ∈ l, ∀ raw, q.2 = Event.line raw →
        parse (pyStrip raw) ≠ ParseResult.divByZero :=
      fun q hq => hnc q (List.mem_cons_of_mem _ hq)
    cases ev with
    | eof => exact absurd rfl (hne (o, Event.eof) (List.mem_cons_self _ _))
    | interrupt =>
      by_cases h1 : 2 ≤ s.interrupts
      · exact runList_stops1 cfg s o _ h1
      · rw [List.cons_append]
        simp only [runList, step_interrupt_lt cfg s o (by omega)]
        exact ih _ o1 o2 o3 r hne' hnc'
    | line raw =>
      have hcr : parse (pyStrip raw) ≠ ParseResult.divByZero :=
        fun hc => hnc (o, Event.line raw) (List.mem_cons_self _ _) raw rfl hc
      obtain ⟨s2, hstep, _⟩ := step_line_next cfg s o raw hcr
      rw [List.cons_append]
      simp only [runList, hstep]
      exact ih _ o1 o2 o3 r hne' hnc'

/-- If a run stops through the repeated-interrupts break, the trace holds a
triple of contiguous interrupts, up to the interrupts already pending at the
start. -/
theorem runList_triple_of_stops (cfg : Config) :
    ∀ (tr : List (Oracle × Event)) (s : Session),
      (runList cfg s tr).isStoppedInterrupts = true →
      HasTriple tr ∨ 3 ≤ s.interrupts + leadInts tr := by
  intro tr
  induction tr with
  | nil =>
    intro s h
    simp [runList, Outcome.isStoppedInterrupts] at h
  | cons p t ih =>
    intro s h
    obtain ⟨o, ev⟩ := p
    cases ev with
    | eof =>
      simp [runList, step, Outcome.isStoppedInterrupts] at h
    | line raw =>
      by_cases hp : parse (pyStrip raw) = ParseResult.divByZero
      · simp [runList, step, hp, Outcome.isStoppedInterrupts] at h
      · obtain ⟨s2, hstep, hi⟩ := step_line_next cfg s o raw hp
        simp only [runList, hstep] at h
        rcases ih s2 h with ht | hge
        · exact Or.inl (HasTriple.cons _ _ ht)
        · rw [hi] at hge
          exact Or.inl (HasTriple.cons _ _ (hasTriple_of_leadInts t (by omega)))
    | interrupt =>
      have hl : leadInts ((o, Event.interrupt) :: t) = leadInts t + 1 := by
        simp [leadInts]
      by_cases h1 : 2 ≤ s.interrupts
      · right
        omega
      · simp only [runList, step_interrupt_lt cfg s o (by omega)] at h
        rcases ih _ h with ht | hge
        · exact Or.inl (HasTriple.cons _ _ ht)
        · right
          have hge' : 3 ≤ s.interrupts + 1 + leadInts t := hge
          omega

/-- Claim C4 as amended: starting from a state with no pending interrupts,
over any trace free of end-of-input and of crashing (zero-denominator)
lines, the session terminates through interrupt escalation exactly when the
trace contains 3 cancellation signals with no intervening read line of any
kind — any read line, even a malformed one that never parses, resets the
consecutive count — and in particular fewer than 3 such back-to-back
signals never terminate the session this way. -/
theorem c4_theorem (cfg : Config) (s : Session) (tr : List (Oracle × Event))
    (hi : s.interrupts = 0)
    (hne : ∀ p ∈ tr, p.2 ≠ Event.eof)
    (hnc : ∀ p ∈ tr, ∀ raw, p.2 = Event.line raw →
      parse (pyStrip raw) ≠ ParseResult.divByZero) :
    ((runList cfg s tr).isStoppedInterrupts = true ↔ HasTriple tr) := by
  constructor
  · intro h
    rcases runList_triple_of_stops cfg tr s h with ht | hge
    · exact ht
    · rw [hi] at hge
      exact hasTriple_of_leadInts tr (by omega)
  · intro hh
    obtain ⟨l, o1, o2, o3, r, rfl⟩ := hh
    exact runList_stops_of_triple cfg l s o1 o2 o3 r
      (fun p hp => hne p (List.mem_append_left _ hp))
      (fun p hp raw he => hnc p (List.mem_append_left _ hp) raw he)

/-- Claim C4 witness: three back-to-back interrupts from a fresh session
stop it. -/
theorem c4_witness :
    (runList cfgValue Session.init
      [(oracleA, Event.interrupt), (oracleA, Event.interrupt),
        (oracleA, Event.interrupt)]).isStoppedInterrupts = true :=
  (c4_theorem cfgValue Session.init
      [(oracleA, Event.interrupt), (oracleA, Event.interrupt), (oracleA, Event.interrupt)]
      rfl (by decide)
      (by
        intro p hp raw he
        simp at hp
        rw [hp] at he
        exact Event.noConfusion he)).mpr
    ⟨[], oracleA, oracleA, oracleA, [], rfl⟩

/-- `takeWhile`/`dropWhile` split an all-satisfying run from a rest whose
head fails the predicate. -/
theorem takeDrop_all_append (p : Char → Bool) :
    ∀ (l r : List Char), (∀ c ∈ l, p c = true) → (∀ c t, r = c :: t → p c = false) →
      (l ++ r).takeWhile p = l ∧ (l ++ r).dropWhile p = r := by
  intro l
  induction l with
  | nil =>
    intro r _ hr
    rcases r with _ | ⟨c, t⟩
    · simp
    · have hc := hr c t rfl
      simp [List.takeWhile_cons, List.dropWhile_cons, hc]
  | cons a l ih =>
    intro r hl hr
    have ha : p a = true := hl a (List.mem_cons_self _ _)
    obtain ⟨h1, h2⟩ := ih r (fun c hc => hl c (List.mem_cons_of_mem _ hc)) hr
    simp [List.takeWhile_cons, List.dropWhile_cons, ha, h1, h2]

/-- The head of a `dropWhile` residue fails the predicate. -/
theorem dropWhile_head_false (p : Char → Bool) :
    ∀ (l : List Char) (c : Char) (t : List Char), l.dropWhile p = c :: t → p c = false := by
  intro l
  induction l with
  | nil =>
    intro c t h
    exact List.noConfusion h
  | cons a l ih =>
    intro c t h
    by_cases ha : p a
    · rw [List.dropWhile_cons, if_pos ha] at h
      exact ih c t h
    · rw [List.dropWhile_cons, if_neg ha] at h
      cases h
      simpa using ha

/-- Soundness of the mixed-number matcher against the amended shape. -/
theorem matchWhole_sound (cs : List Char) (w n d : ℕ) (h : IsMixedNumeral cs w n d) :
    matchWholeFormat cs = some (w, n, d) := by
  obtain ⟨ws, ns, ds, rest, ⟨hws1, hws2⟩, ⟨hns1, hns2⟩, ⟨hds1, hds2⟩, hcs, hrest, hw, hn, hd⟩ := h
  subst hcs hw hn hd
  have A := takeDrop_all_append Char.isDigit ws (('-') :: (ns ++ ('/') :: (ds ++ rest))) hws2
    (by
      intro c t he
      cases he
      decide)
  have e1 : List.span Char.isDigit (ws ++ ('-') :: (ns ++ ('/') :: (ds ++ rest))) =
      (ws, ('-') :: (ns ++ ('/') :: (ds ++ rest))) := by
    rw [List.span_eq_take_drop, A.1, A.2]
  have B := takeDrop_all_append Char.isDigit ns (('/') :: (ds ++ rest)) hns2
    (by
      intro c t he
      cases he
      decide)
  have e2 : List.span Char.isDigit (ns ++ ('/') :: (ds ++ rest)) =
      (ns, ('/') :: (ds ++ rest)) := by
    rw [List.span_eq_take_drop, B.1, B.2]
  have C := takeDrop_all_append Char.isDigit ds rest hds2
    (by
      intro c t he
      exact hrest c t he)
  have e3 : List.span Char.isDigit (ds ++ rest) = (ds, rest) := by
    rw [List.span_eq_take_drop, C.1, C.2]
  simp only [matchWholeFormat, e1, e2, e3]
  simp [hws1, hns1, hds1]

/-- Completeness of the mixed-number matcher against the amended shape. -/
theorem matchWhole_complete (cs : List Char) (w n d : ℕ)
    (h : matchWholeFormat cs = some (w, n, d)) : IsMixedNumeral cs w n d := by
  unfold matchWholeFormat at h
  simp only [List.span_eq_take_drop] at h
  split at h
  · exact Option.noConfusion h
  · rename_i hws
    split at h
    · rename_i c r1 hdw
      split at h
      · rename_i hc
        subst hc
        split at h
        · exact Option.noConfusion h
        · rename_i hns
          split at h
          · rename_i c2 r2 hdw2
            split at h
            · rename_i hc2
              subst hc2
              split at h
              · exact Option.noConfusion h
              · rename_i hds
                obtain ⟨hw, hn, hd⟩ : w = digitsToNat (cs.takeWhile Char.isDigit) ∧
                    n = digitsToNat (r1.takeWhile Char.isDigit) ∧
                    d = digitsToNat (r2.takeWhile Char.isDigit) := by
                  have h2 := Option.some.inj h
                  simp only [Prod.mk.injEq] at h2
                  exact ⟨h2.1.symm, h2.2.1.symm, h2.2.2.symm⟩
                refine ⟨cs.takeWhile Char.isDigit, r1.takeWhile Char.isDigit,
                  r2.takeWhile Char.isDigit, r2.dropWhile Char.isDigit,
                  ⟨hws, fun c hc => List.mem_takeWhile_imp hc⟩,
                  ⟨hns, fun c hc => List.mem_takeWhile_imp hc⟩,
                  ⟨hds, fun c hc => List.mem_takeWhile_imp hc⟩, ?_, ?_, hw, hn, hd⟩
                · conv_lhs => rw [← List.takeWhile_append_dropWhile Char.isDigit cs]
                  rw [hdw]
                  congr 1
                  congr 1
                  conv_lhs => rw [← List.takeWhile_append_dropWhile Char.isDigit r1]
                  rw [hdw2]
                  congr 1
                  congr 1
                  exact (List.takeWhile_append_dropWhile _ _).symm
                · intro c t hct
                  exact dropWhile_head_false Char.isDigit r2 c t hct
            · exact Option.noConfusion h
          · exact Option.noConfusion h
      · exact Option.noConfusion h
    · exact Option.noConfusion h

/-- Claim C3 as amended: parse recognises a mixed-number answer exactly when
the text *begins* with `(\d+)-(\d+)/(\d+)` — the regex is matched at the
start only, so trailing characters after the denominator digits (any text
not starting with a further digit) are ignored rather than rejected — and
the recognised value is `(whole*denom + num) / denom` (reduced; a zero
denominator raises `ZeroDivisionError`); e.g. `1-3/8` parses to
`Rational(11, 8)`. -/
theorem c3_theorem :
    (∀ (cs : List Char) (w n d : ℕ), IsMixedNumeral cs w n d →
        matchWholeFormat cs = some (w, n, d)) ∧
      (∀ (cs : List Char) (w n d : ℕ), matchWholeFormat cs = some (w, n, d) →
        IsMixedNumeral cs w n d) ∧
      (∀ (s : String) (w n d : ℕ), IsMixedNumeral s.toList w n d →
        parse s = mkParsed (((w * d + n : ℕ) : ℤ)) d) ∧
      parse ("1-3/8") = ParseResult.ok ⟨11, 8⟩ := by
  refine ⟨matchWhole_sound, matchWhole_complete, ?_, by decide⟩
  intro s w n d hm
  simp only [parse, matchWhole_sound s.toList w n d hm]

/-- Claim C3 witness: the decomposition of `1-3/8` feeds the amended parse
equation. -/
theorem c3_witness : parse ("1-3/8") = mkParsed (((1 * 8 + 3 : ℕ) : ℤ)) 8 :=
  c3_theorem.2.2.1 ("1-3/8") 1 3 8
    ⟨['1'], ['3'], ['8'], [], by decide, by decide, by decide, rfl,
      fun c t hct => List.noConfusion hct, rfl, rfl, rfl⟩
